import Mathlib

/-!
Verification of the ksubst substitution core (`src/src/lib.rs`).

The library substitutes `$\x7bVAR\x7d`-style placeholders in a template
string from a map of variables.  We embed the three core functions —
`substitute`, `is_templated`, `validate_vars`/`validate` — as executable
Lean functions over `List Char` / `String`, with the variable map modelled
as an association list (the source iterates a `HashMap`; all order-sensitive
statements below are confined to single-entry maps, where iteration order
is trivial).

The regular expression used by the source for both the engine and the
detector is (with braces escaped here)
  `\$\\x7b([A-Za-z_][A-Za-z0-9_]*)([\.\-][^\x7d]*)?\\x7d`
i.e. `$` `\x7b`, a name (one or more ASCII letters/digits/underscore starting
with a letter or underscore), an optional suffix (`.` or `-` followed by the
characters up to the first `\x7d`), and the closing `\x7d`.  `Regex::replace_all`
scans left to right for non-overlapping leftmost matches; for this pattern a
match starting at a given `$\x7b` is unique when it exists (the name run is the
maximal run of name characters, since a suffix must start with `.`/`-` which
are not name characters, so no backtracking into the name can succeed), so
the hand-rolled scanner below is an exact model.
-/

namespace Ksubst

/-- ASCII letter or underscore: the first character of a placeholder name
(`[A-Za-z_]` in the source regex). -/
def nameStart (c : Char) : Bool := c.isAlpha || c = '_'

/-- ASCII letter, digit or underscore: a subsequent character of a
placeholder name (`[A-Za-z0-9_]` in the source regex). -/
def nameChar (c : Char) : Bool := c.isAlpha || c.isDigit || c = '_'

/-- A non-empty list of characters that forms a valid placeholder name:
`[A-Za-z_][A-Za-z0-9_]*`. -/
def validNameL : List Char → Bool
  | [] => false
  | c :: cs => nameStart c && cs.all nameChar

/-- String form of `validNameL`. -/
def validName (s : String) : Bool := validNameL s.data

/-- Match the part of a placeholder after the opening `$` `\x7b` delimiters:
a valid name, then either the closing `\x7d`, or a suffix marker `.`/`-`
followed by the characters up to the first `\x7d` and that `\x7d`.  Returns
`(name, suffix, rest)` where `suffix` includes its leading marker and `rest`
is the input after the closing `\x7d`; `none` when the grammar does not
match here (which in the source means the regex does not match at this
start position). -/
def matchTail (rest : List Char) : Option (List Char × List Char × List Char) :=
  if validNameL (rest.takeWhile nameChar) then
    match rest.dropWhile nameChar with
    | [] => none
    | m :: r2 =>
      if m = '\x7d' then some (rest.takeWhile nameChar, [], r2)
      else if m = '.' || m = '-' then
        match r2.dropWhile (fun c => !(c = '\x7d')) with
        | [] => none
        | _ :: r4 =>
          some (rest.takeWhile nameChar, m :: r2.takeWhile (fun c => !(c = '\x7d')), r4)
      else none
  else none

/-- Match one placeholder at the head of the input: `$` then `\x7b` then
`matchTail`.  This is the source regex anchored at the current scan
position. -/
def matchPlaceholder : List Char → Option (List Char × List Char × List Char)
  | '$' :: '\x7b' :: rest => matchTail rest
  | _ => none

theorem dropWhile_head_false {p : Char → Bool} {l r : List Char} {b : Char}
    (h : l.dropWhile p = b :: r) : p b = false := by
  induction l with
  | nil => simp [List.dropWhile] at h
  | cons a t ih =>
    rw [List.dropWhile_cons] at h
    by_cases hp : p a = true
    · exact ih (by simpa [hp] using h)
    · simp [hp] at h
      obtain ⟨h1, _⟩ := h
      subst h1
      simpa using hp

theorem length_dropWhile_le (p : Char → Bool) (l : List Char) :
    (l.dropWhile p).length ≤ l.length :=
  (List.dropWhile_sublist (l := l) (p := p)).length_le

theorem matchTail_length {rest nm suf r : List Char}
    (h : matchTail rest = some (nm, suf, r)) : r.length < rest.length := by
  unfold matchTail at h
  split at h
  case isFalse => exact absurd h (by simp)
  case isTrue =>
    split at h
    case h_1 => exact absurd h (by simp)
    case h_2 m r2 heq =>
      have hr2 : r2.length < rest.length := by
        have := length_dropWhile_le nameChar rest
        rw [heq] at this
        simpa using Nat.lt_of_succ_le this
      split at h
      case isTrue =>
        simp only [Option.some.injEq, Prod.mk.injEq] at h
        obtain ⟨-, -, h3⟩ := h
        subst h3; exact hr2
      case isFalse =>
        split at h
        case isFalse => exact absurd h (by simp)
        case isTrue =>
          split at h
          case h_1 => exact absurd h (by simp)
          case h_2 b r4 heq4 =>
            simp only [Option.some.injEq, Prod.mk.injEq] at h
            obtain ⟨-, -, h3⟩ := h
            subst h3
            have h4 : r4.length < r2.length := by
              have := length_dropWhile_le (fun c => !(c = '\x7d')) r2
              rw [heq4] at this
              simpa using Nat.lt_of_succ_le this
            exact Nat.lt_trans h4 hr2

theorem matchPlaceholder_length {cs nm suf r : List Char}
    (h : matchPlaceholder cs = some (nm, suf, r)) : r.length < cs.length := by
  unfold matchPlaceholder at h
  split at h
  case h_1 rest =>
    have := matchTail_length h
    simp only [List.length_cons]
    omega
  case h_2 => exact absurd h (by simp)

/-- The three characters forbidden in variable keys and values, in the
order the source's `validate` checks them: `$`, `\x7b`, `\x7d`. -/
def forbiddenChars : List Char := ['$', '\x7b', '\x7d']

/-- Does the string contain the character?  Models Rust's
`value.contains(c)` for a single-character pattern. -/
def strContains (s : String) (c : Char) : Bool := s.data.any (fun a => a == c)

/-- The error message built by the source's `validate`:
`variable <kind> \x27<value>\x27 contains forbidden character \x27<c>\x27`. -/
def errMsg (kind value : String) (c : Char) : String :=
  "variable " ++ kind ++ " \x27" ++ value ++ "\x27 contains forbidden character \x27"
    ++ String.singleton c ++ "\x27"

/-- The loop body of the source's `validate`: try each forbidden character
in order, failing on the first one the string contains. -/
def checkForbidden (value kind : String) : List Char → Except String Unit
  | [] => .ok ()
  | c :: rest =>
    if strContains value c then .error (errMsg kind value c)
    else checkForbidden value kind rest

/-- `validate` from the source: check `value` against the three forbidden
characters in order, reporting `kind` ("key" or "value") in the message. -/
def validate (value kind : String) : Except String Unit :=
  checkForbidden value kind forbiddenChars

/-- `validate_vars` from the source: for each entry, check the key then the
value, propagating the first failure. -/
def validateVars : List (String × String) → Except String Unit
  | [] => .ok ()
  | (k, v) :: rest =>
    match validate k "key" with
    | .error e => .error e
    | .ok () =>
      match validate v "value" with
      | .error e => .error e
      | .ok () => validateVars rest

/-- Fuelled scanner for `Regex::replace_all`: at each position try to match
a placeholder; on a match, resolve the name in the variable map —
non-empty value: emit the value then the suffix verbatim; empty value:
emit nothing; absent name: emit the whole matched text unchanged — and
continue after the match; otherwise emit the character and move on.  The
fuel only makes the recursion structural; `substAuxFuel_eq` below shows any
fuel at least the input length gives the same result. -/
def substAuxFuel (vars : List (String × String)) : Nat → List Char → List Char
  | _, [] => []
  | 0, c :: cs => c :: cs
  | fuel + 1, c :: cs =>
    match matchPlaceholder (c :: cs) with
    | some (nm, suf, rest) =>
      match List.lookup (String.mk nm) vars with
      | some v =>
        if v = "" then substAuxFuel vars fuel rest
        else v.data ++ suf ++ substAuxFuel vars fuel rest
      | none => '$' :: '\x7b' :: (nm ++ suf ++ '\x7d' :: substAuxFuel vars fuel rest)
    | none => c :: substAuxFuel vars fuel cs

/-- The scan-and-replace pass of `substitute`, on character lists. -/
def substAux (vars : List (String × String)) (cs : List Char) : List Char :=
  substAuxFuel vars cs.length cs

/-- `substitute` from the source: return the template unchanged when the
variable map is empty; otherwise validate all keys and values, propagating
a failure before any substitution, then run the scan-and-replace pass. -/
def substitute (template : String) (vars : List (String × String)) :
    Except String String :=
  if vars.isEmpty then .ok template
  else
    match validateVars vars with
    | .error e => .error e
    | .ok () => .ok (String.mk (substAux vars template.data))

/-- Does any position of the input start a placeholder match?  This is
`re.is_match` for the source's placeholder regex. -/
def hasMatch : List Char → Bool
  | [] => false
  | c :: cs => (matchPlaceholder (c :: cs)).isSome || hasMatch cs

/-- `is_templated` from the source: the template contains at least one
match of the same placeholder grammar the engine scans for. -/
def is_templated (input : String) : Bool := hasMatch input.data

/-- Fuelled variant of the list of names of the placeholders the engine's
scan matches, in scan order. -/
def placeholderNamesFuel : Nat → List Char → List String
  | _, [] => []
  | 0, _ :: _ => []
  | fuel + 1, c :: cs =>
    match matchPlaceholder (c :: cs) with
    | some (nm, _, rest) => String.mk nm :: placeholderNamesFuel fuel rest
    | none => placeholderNamesFuel fuel cs

/-- The names of the placeholders the engine's scan matches in the input,
in scan order. -/
def placeholderNames (cs : List Char) : List String :=
  placeholderNamesFuel cs.length cs

theorem substAuxFuel_eq (vars : List (String × String)) :
    ∀ f₁ f₂ cs, cs.length ≤ f₁ → cs.length ≤ f₂ →
      substAuxFuel vars f₁ cs = substAuxFuel vars f₂ cs := by
  intro f₁
  induction f₁ with
  | zero =>
    intro f₂ cs h1 _
    have : cs = [] := List.length_eq_zero.mp (Nat.le_zero.mp h1)
    subst this
    cases f₂ <;> rfl
  | succ f ih =>
    intro f₂ cs h1 h2
    match cs with
    | [] => cases f₂ <;> rfl
    | c :: cs =>
      match f₂ with
      | 0 => exact absurd h2 (by simp)
      | g + 1 =>
        simp only [substAuxFuel]
        have hc : cs.length ≤ f := Nat.le_of_succ_le_succ h1
        have hg : cs.length ≤ g := Nat.le_of_succ_le_succ h2
        match hm : matchPlaceholder (c :: cs) with
        | some (nm, suf, rest) =>
          have hrest : rest.length ≤ cs.length := by
            have := matchPlaceholder_length hm
            simp only [List.length_cons] at this
            omega
          simp only [ih g rest (Nat.le_trans hrest hc) (Nat.le_trans hrest hg)]
        | none =>
          simp only [ih g cs hc hg]

theorem placeholderNamesFuel_eq :
    ∀ f₁ f₂ cs, cs.length ≤ f₁ → cs.length ≤ f₂ →
      placeholderNamesFuel f₁ cs = placeholderNamesFuel f₂ cs := by
  intro f₁
  induction f₁ with
  | zero =>
    intro f₂ cs h1 _
    have : cs = [] := List.length_eq_zero.mp (Nat.le_zero.mp h1)
    subst this
    cases f₂ <;> rfl
  | succ f ih =>
    intro f₂ cs h1 h2
    match cs with
    | [] => cases f₂ <;> rfl
    | c :: cs =>
      match f₂ with
      | 0 => exact absurd h2 (by simp)
      | g + 1 =>
        simp only [placeholderNamesFuel]
        have hc : cs.length ≤ f := Nat.le_of_succ_le_succ h1
        have hg : cs.length ≤ g := Nat.le_of_succ_le_succ h2
        match hm : matchPlaceholder (c :: cs) with
        | some (nm, suf, rest) =>
          have hrest : rest.length ≤ cs.length := by
            have := matchPlaceholder_length hm
            simp only [List.length_cons] at this
            omega
          simp only [ih g rest (Nat.le_trans hrest hc) (Nat.le_trans hrest hg)]
        | none =>
          simp only [ih g cs hc hg]

/-- A string with none of the three forbidden characters `$`, `\x7b`, `\x7d`. -/
def cleanStr (s : String) : Bool :=
  !(strContains s '$' || strContains s '\x7b' || strContains s '\x7d')

/-- All keys and values of the variable map are free of the forbidden
characters. -/
def cleanVars (vars : List (String × String)) : Bool :=
  vars.all (fun p => cleanStr p.1 && cleanStr p.2)

theorem mk_data (s : String) : String.mk s.data = s := rfl

theorem substAux_nil (vars : List (String × String)) : substAux vars [] = [] := rfl

theorem substAux_cons_none {c : Char} {cs : List Char} (vars : List (String × String))
    (h : matchPlaceholder (c :: cs) = none) :
    substAux vars (c :: cs) = c :: substAux vars cs := by
  unfold substAux
  simp only [List.length_cons, substAuxFuel, h]

theorem substAux_fuel_fix {cs rest : List Char} {c : Char} {x : List Char × List Char × List Char}
    (vars : List (String × String))
    (h : matchPlaceholder (c :: cs) = some x) (hr : x.2.2 = rest) :
    substAuxFuel vars cs.length rest = substAux vars rest := by
  subst hr
  have hrest : x.2.2.length ≤ cs.length := by
    have := @matchPlaceholder_length (c :: cs) x.1 x.2.1 x.2.2 (by rw [h])
    simp only [List.length_cons] at this
    omega
  exact substAuxFuel_eq vars cs.length x.2.2.length x.2.2 hrest (Nat.le_refl _)

theorem substAux_found {c : Char} {cs nm suf rest : List Char} {v : String}
    (vars : List (String × String))
    (hm : matchPlaceholder (c :: cs) = some (nm, suf, rest))
    (hl : List.lookup (String.mk nm) vars = some v) (hv : ¬ v = "") :
    substAux vars (c :: cs) = v.data ++ suf ++ substAux vars rest := by
  conv_lhs => unfold substAux
  simp only [List.length_cons, substAuxFuel, hm, hl, if_neg hv]
  rw [substAux_fuel_fix vars hm rfl]

theorem substAux_found_empty {c : Char} {cs nm suf rest : List Char}
    (vars : List (String × String))
    (hm : matchPlaceholder (c :: cs) = some (nm, suf, rest))
    (hl : List.lookup (String.mk nm) vars = some "") :
    substAux vars (c :: cs) = substAux vars rest := by
  conv_lhs => unfold substAux
  simp only [List.length_cons, substAuxFuel, hm, hl, if_pos rfl]
  rw [substAux_fuel_fix vars hm rfl]
  simp

theorem substAux_not_found {c : Char} {cs nm suf rest : List Char}
    (vars : List (String × String))
    (hm : matchPlaceholder (c :: cs) = some (nm, suf, rest))
    (hl : List.lookup (String.mk nm) vars = none) :
    substAux vars (c :: cs) = '$' :: '\x7b' :: (nm ++ suf ++ '\x7d' :: substAux vars rest) := by
  conv_lhs => unfold substAux
  simp only [List.length_cons, substAuxFuel, hm, hl]
  rw [substAux_fuel_fix vars hm rfl]

theorem takeWhile_append_all {p : Char → Bool} {l1 : List Char} (l2 : List Char)
    (h : ∀ a ∈ l1, p a = true) : (l1 ++ l2).takeWhile p = l1 ++ l2.takeWhile p := by
  induction l1 with
  | nil => simp
  | cons a t ih =>
    simp only [List.cons_append, List.takeWhile_cons, h a (by simp)]
    rw [ih (fun x hx => h x (by simp [hx]))]
    simp

theorem dropWhile_append_all {p : Char → Bool} {l1 : List Char} (l2 : List Char)
    (h : ∀ a ∈ l1, p a = true) : (l1 ++ l2).dropWhile p = l2.dropWhile p := by
  induction l1 with
  | nil => simp
  | cons a t ih =>
    simp only [List.cons_append, List.dropWhile_cons, h a (by simp), if_true]
    exact ih (fun x hx => h x (by simp [hx]))

theorem nameStart_nameChar {c : Char} (h : nameStart c = true) : nameChar c = true := by
  simp only [nameStart, Bool.or_eq_true] at h
  rcases h with h | h <;> simp [nameChar, h]

theorem validNameL_all {l : List Char} (h : validNameL l = true) :
    ∀ a ∈ l, nameChar a = true := by
  cases l with
  | nil => simp
  | cons c cs =>
    simp only [validNameL, Bool.and_eq_true, List.all_eq_true] at h
    intro a ha
    rcases List.mem_cons.mp ha with rfl | ha
    · exact nameStart_nameChar h.1
    · exact h.2 a ha

theorem matchTail_name_close {nm r : List Char} (hn : validNameL nm = true) :
    matchTail (nm ++ '\x7d' :: r) = some (nm, [], r) := by
  have hall := validNameL_all hn
  have ht : (nm ++ '\x7d' :: r).takeWhile nameChar = nm := by
    rw [takeWhile_append_all _ hall]
    simp [List.takeWhile_cons, show nameChar '\x7d' = false by decide]
  have hd : (nm ++ '\x7d' :: r).dropWhile nameChar = '\x7d' :: r := by
    rw [dropWhile_append_all _ hall]
    simp [List.dropWhile_cons, show nameChar '\x7d' = false by decide]
  unfold matchTail
  rw [ht, hd, if_pos hn]
  simp

theorem matchTail_name_suffix {nm body r : List Char} {m : Char} (hn : validNameL nm = true)
    (hm : m = '.' ∨ m = '-') (hb : ∀ a ∈ body, ¬ a = '\x7d') :
    matchTail (nm ++ m :: (body ++ '\x7d' :: r)) = some (nm, m :: body, r) := by
  have hall := validNameL_all hn
  have hmname : nameChar m = false := by rcases hm with rfl | rfl <;> decide
  have hmne : ¬ m = '\x7d' := by rcases hm with rfl | rfl <;> decide
  have hmor : (m = '.' || m = '-') = true := by rcases hm with rfl | rfl <;> simp
  have hb' : ∀ a ∈ body, (fun c => !(c = '\x7d')) a = true := by
    intro a ha; simp [hb a ha]
  have ht : (nm ++ m :: (body ++ '\x7d' :: r)).takeWhile nameChar = nm := by
    rw [takeWhile_append_all _ hall]
    simp [List.takeWhile_cons, hmname]
  have hd : (nm ++ m :: (body ++ '\x7d' :: r)).dropWhile nameChar
      = m :: (body ++ '\x7d' :: r) := by
    rw [dropWhile_append_all _ hall]
    simp [List.dropWhile_cons, hmname]
  have hti : (body ++ '\x7d' :: r).takeWhile (fun c => !(c = '\x7d')) = body := by
    rw [takeWhile_append_all _ hb']
    simp [List.takeWhile_cons]
  have hdi : (body ++ '\x7d' :: r).dropWhile (fun c => !(c = '\x7d')) = '\x7d' :: r := by
    rw [dropWhile_append_all _ hb']
    simp [List.dropWhile_cons]
  unfold matchTail
  rw [ht, hd, if_pos hn]
  simp only [if_neg hmne, hmor, if_true, hdi, hti]

theorem matchTail_name_bad {nm r : List Char} {c : Char} (hn : validNameL nm = true)
    (hc : nameChar c = false) (h1 : ¬ c = '\x7d') (h2 : ¬ c = '.') (h3 : ¬ c = '-') :
    matchTail (nm ++ c :: r) = none := by
  have hall := validNameL_all hn
  have ht : (nm ++ c :: r).takeWhile nameChar = nm := by
    rw [takeWhile_append_all _ hall]
    simp [List.takeWhile_cons, hc]
  have hd : (nm ++ c :: r).dropWhile nameChar = c :: r := by
    rw [dropWhile_append_all _ hall]
    simp [List.dropWhile_cons, hc]
  have hor : (c = '.' || c = '-') = false := by simp [h2, h3]
  unfold matchTail
  rw [ht, hd, if_pos hn]
  simp only [if_neg h1, hor, Bool.false_eq_true, if_false]

theorem matchTail_all_name {l : List Char} (h : ∀ a ∈ l, nameChar a = true) :
    matchTail l = none := by
  have hd : l.dropWhile nameChar = [] := by
    have := @dropWhile_append_all nameChar l [] h
    simpa using this
  unfold matchTail
  rw [hd]
  split <;> rfl

theorem matchPlaceholder_not_dollar {c : Char} {cs : List Char} (h : ¬ c = '$') :
    matchPlaceholder (c :: cs) = none := by
  unfold matchPlaceholder
  split
  case h_1 rest heq =>
    simp only [List.cons.injEq] at heq
    exact absurd heq.1 h
  case h_2 => rfl

theorem matchPlaceholder_decomp {cs nm suf rest : List Char}
    (h : matchPlaceholder cs = some (nm, suf, rest)) :
    cs = '$' :: '\x7b' :: (nm ++ suf ++ '\x7d' :: rest) := by
  unfold matchPlaceholder at h
  split at h
  case h_2 => exact absurd h (by simp)
  case h_1 r =>
    unfold matchTail at h
    split at h
    case isFalse => exact absurd h (by simp)
    case isTrue hn =>
      split at h
      case h_1 => exact absurd h (by simp)
      case h_2 m r2 heq2 =>
        have hsplit : r = r.takeWhile nameChar ++ (m :: r2) := by
          conv_lhs => rw [← List.takeWhile_append_dropWhile (p := nameChar) (l := r)]
          rw [heq2]
        split at h
        case isTrue hmq =>
          simp only [Option.some.injEq, Prod.mk.injEq] at h
          obtain ⟨h1, h2, h3⟩ := h
          subst h1; subst h2; subst h3; subst hmq
          simp only [List.cons.injEq, List.nil_append, true_and]
          simpa using hsplit
        case isFalse hmq =>
          split at h
          case isFalse => exact absurd h (by simp)
          case isTrue hmor =>
            split at h
            case h_1 => exact absurd h (by simp)
            case h_2 b r4 heq4 =>
              simp only [Option.some.injEq, Prod.mk.injEq] at h
              obtain ⟨h1, h2, h3⟩ := h
              have hb : b = '\x7d' := by
                have := dropWhile_head_false heq4
                simpa using this
              subst hb
              have hsplit2 : r2 = r2.takeWhile (fun c => !(c = '\x7d')) ++ ('\x7d' :: r4) := by
                conv_lhs =>
                  rw [← List.takeWhile_append_dropWhile (p := fun c => !(c = '\x7d')) (l := r2)]
                rw [heq4]
              subst h1; subst h3
              rw [← h2]
              simp only [List.cons.injEq, true_and]
              conv_lhs => rw [hsplit]
              conv_lhs => rw [hsplit2]
              simp

theorem substAux_nil_vars : ∀ (n : Nat) (cs : List Char), cs.length ≤ n →
    substAux [] cs = cs := by
  intro n
  induction n with
  | zero =>
    intro cs h
    have : cs = [] := List.length_eq_zero.mp (Nat.le_zero.mp h)
    subst this; rfl
  | succ n ih =>
    intro cs h
    match cs with
    | [] => rfl
    | c :: cs =>
      match hm : matchPlaceholder (c :: cs) with
      | some (nm, suf, rest) =>
        have hrest : rest.length ≤ cs.length := by
          have := matchPlaceholder_length hm
          simp only [List.length_cons] at this
          omega
        rw [substAux_not_found [] hm (by simp [List.lookup])]
        rw [ih rest (Nat.le_trans hrest (Nat.le_of_succ_le_succ h))]
        exact (matchPlaceholder_decomp hm).symm
      | none =>
        rw [substAux_cons_none [] hm]
        rw [ih cs (Nat.le_of_succ_le_succ h)]

theorem nameChar_not_special {c : Char} (h : nameChar c = true) :
    ¬ c = '$' ∧ ¬ c = '\x7b' ∧ ¬ c = '\x7d' ∧ ¬ c = '.' ∧ ¬ c = '-' := by
  refine ⟨?_, ?_, ?_, ?_, ?_⟩ <;> rintro rfl <;> exact absurd h (by decide)

theorem hasMatch_nil : hasMatch [] = false := rfl

theorem hasMatch_cons (c : Char) (cs : List Char) :
    hasMatch (c :: cs) = ((matchPlaceholder (c :: cs)).isSome || hasMatch cs) := rfl

theorem hasMatch_of_no_dollar {cs : List Char} (h : ∀ a ∈ cs, ¬ a = '$') :
    hasMatch cs = false := by
  induction cs with
  | nil => rfl
  | cons c cs ih =>
    rw [hasMatch_cons, matchPlaceholder_not_dollar (h c (by simp))]
    simp only [Option.isSome_none, Bool.false_or]
    exact ih (fun a ha => h a (by simp [ha]))

theorem hasMatch_append {l1 l2 : List Char} (h : ∀ a ∈ l1, ¬ a = '$') :
    hasMatch (l1 ++ l2) = hasMatch l2 := by
  induction l1 with
  | nil => rfl
  | cons c t ih =>
    rw [List.cons_append, hasMatch_cons, matchPlaceholder_not_dollar (h c (by simp))]
    simp only [Option.isSome_none, Bool.false_or]
    exact ih (fun a ha => h a (by simp [ha]))

theorem substAux_no_match (vars : List (String × String)) :
    ∀ cs, hasMatch cs = false → substAux vars cs = cs := by
  intro cs
  induction cs with
  | nil => intro _; rfl
  | cons c cs ih =>
    intro h
    rw [hasMatch_cons, Bool.or_eq_false_iff] at h
    obtain ⟨h1, h2⟩ := h
    rw [substAux_cons_none vars (Option.not_isSome_iff_eq_none.mp (by simp [h1]))]
    rw [ih h2]

theorem strContains_iff {s : String} {c : Char} :
    strContains s c = true ↔ c ∈ s.data := by
  simp only [strContains, List.any_eq_true, beq_iff_eq]
  constructor
  · rintro ⟨a, ha, rfl⟩; exact ha
  · intro h; exact ⟨c, h, rfl⟩

theorem validate_ok_iff {s kind : String} :
    validate s kind = .ok () ↔ cleanStr s = true := by
  unfold validate forbiddenChars cleanStr
  by_cases h1 : strContains s '$' = true <;>
    by_cases h2 : strContains s '\x7b' = true <;>
      by_cases h3 : strContains s '\x7d' = true <;>
        simp [checkForbidden, h1, h2, h3]

theorem validate_error_char {s kind e : String} (h : validate s kind = .error e) :
    ∃ c, c ∈ forbiddenChars ∧ strContains s c = true ∧ e = errMsg kind s c := by
  unfold validate forbiddenChars at h
  by_cases h1 : strContains s '$' = true
  · refine ⟨'$', by simp [forbiddenChars], h1, ?_⟩
    simp [checkForbidden, h1] at h
    exact h.symm
  · by_cases h2 : strContains s '\x7b' = true
    · refine ⟨'\x7b', by simp [forbiddenChars], h2, ?_⟩
      simp [checkForbidden, h1, h2] at h
      exact h.symm
    · by_cases h3 : strContains s '\x7d' = true
      · refine ⟨'\x7d', by simp [forbiddenChars], h3, ?_⟩
        simp [checkForbidden, h1, h2, h3] at h
        exact h.symm
      · simp [checkForbidden, h1, h2, h3] at h

theorem validate_of_dirty {s : String} (kind : String) (h : cleanStr s = false) :
    ∃ c, c ∈ forbiddenChars ∧ strContains s c = true ∧
      validate s kind = .error (errMsg kind s c) := by
  unfold cleanStr at h
  by_cases h1 : strContains s '$' = true
  · exact ⟨'$', by simp [forbiddenChars], h1, by simp [validate, forbiddenChars, checkForbidden, h1]⟩
  · by_cases h2 : strContains s '\x7b' = true
    · exact ⟨'\x7b', by simp [forbiddenChars], h2,
        by simp [validate, forbiddenChars, checkForbidden, h1, h2]⟩
    · by_cases h3 : strContains s '\x7d' = true
      · exact ⟨'\x7d', by simp [forbiddenChars], h3,
          by simp [validate, forbiddenChars, checkForbidden, h1, h2, h3]⟩
      · simp [h1, h2, h3] at h

theorem validateVars_ok_iff {vars : List (String × String)} :
    validateVars vars = .ok () ↔ cleanVars vars = true := by
  induction vars with
  | nil => simp [validateVars, cleanVars]
  | cons p rest ih =>
    obtain ⟨k, v⟩ := p
    rw [show cleanVars ((k, v) :: rest) = ((cleanStr k && cleanStr v) && cleanVars rest) by
      simp [cleanVars]]
    unfold validateVars
    by_cases hk : cleanStr k = true
    · rw [show validate k "key" = .ok () from validate_ok_iff.mpr hk]
      by_cases hv : cleanStr v = true
      · rw [show validate v "value" = .ok () from validate_ok_iff.mpr hv]
        simp [hk, hv, ih]
      · obtain ⟨c, -, -, he⟩ := validate_of_dirty "value" (by simpa using hv)
        rw [he]
        simp [hv]
    · obtain ⟨c, -, -, he⟩ := validate_of_dirty "key" (by simpa using hk)
      rw [he]
      simp [hk]

theorem validateVars_error_shape {vars : List (String × String)} {e : String}
    (h : validateVars vars = .error e) :
    ∃ p ∈ vars, ∃ c ∈ forbiddenChars,
      (strContains p.1 c = true ∧ e = errMsg "key" p.1 c) ∨
      (strContains p.2 c = true ∧ e = errMsg "value" p.2 c) := by
  induction vars with
  | nil => exact absurd h (by simp [validateVars])
  | cons p rest ih =>
    obtain ⟨k, v⟩ := p
    unfold validateVars at h
    match hk : validate k "key" with
    | .error ek =>
      rw [hk] at h
      obtain ⟨c, hc, hcontains, hek⟩ := validate_error_char hk
      injection h with h
      exact ⟨(k, v), by simp, c, hc, Or.inl ⟨hcontains, by rw [← h, hek]⟩⟩
    | .ok () =>
      rw [hk] at h
      match hv : validate v "value" with
      | .error ev =>
        rw [hv] at h
        obtain ⟨c, hc, hcontains, hev⟩ := validate_error_char hv
        injection h with h
        exact ⟨(k, v), by simp, c, hc, Or.inr ⟨hcontains, by rw [← h, hev]⟩⟩
      | .ok () =>
        rw [hv] at h
        obtain ⟨p, hp, hrest⟩ := ih h
        exact ⟨p, by simp [hp], hrest⟩

theorem substitute_eq_ok {t : String} {vars : List (String × String)}
    (h : cleanVars vars = true) :
    substitute t vars = .ok (String.mk (substAux vars t.data)) := by
  unfold substitute
  by_cases he : vars.isEmpty
  · have hnil : vars = [] := by
      cases vars with
      | nil => rfl
      | cons p rest => simp [List.isEmpty] at he
    subst hnil
    rw [if_pos (by simp), substAux_nil_vars t.data.length t.data (Nat.le_refl _), mk_data]
  · rw [if_neg he, validateVars_ok_iff.mpr h]

theorem cleanStr_no_contains {s : String} (h : cleanStr s = true) :
    ∀ c ∈ forbiddenChars, strContains s c = false := by
  simp only [cleanStr, Bool.not_eq_eq_eq_not, Bool.not_true, Bool.or_eq_false_iff] at h
  obtain ⟨⟨h1, h2⟩, h3⟩ := h
  intro c hc
  simp only [forbiddenChars, List.mem_cons, List.not_mem_nil, or_false] at hc
  rcases hc with rfl | rfl | rfl <;> assumption

theorem validName_clean {V : String} (h : validName V = true) : cleanStr V = true := by
  have hall := validNameL_all (by exact h)
  have key : ∀ c, nameChar c = false → strContains V c = false := by
    intro c hc
    rw [← Bool.not_eq_true]
    intro hcc
    rw [hall c (strContains_iff.mp hcc)] at hc
    cases hc
  simp [cleanStr, key '$' (by decide), key '\x7b' (by decide), key '\x7d' (by decide)]

theorem lookup_mem {k v : String} {l : List (String × String)}
    (h : List.lookup k l = some v) : (k, v) ∈ l := by
  induction l with
  | nil => simp [List.lookup] at h
  | cons p t ih =>
    obtain ⟨a, b⟩ := p
    rw [List.lookup] at h
    by_cases hk : (k == a) = true
    · simp only [hk] at h
      injection h with h
      subst h
      rw [eq_of_beq hk]
      exact List.mem_cons_self _ _
    · rw [Bool.not_eq_true] at hk
      simp only [hk] at h
      exact List.mem_cons_of_mem _ (ih h)

theorem lookup_self (V x : String) (t : List (String × String)) :
    List.lookup V ((V, x) :: t) = some x := by
  simp [List.lookup]

/-- `$` `\x7b` followed by anything is examined by `matchTail`. -/
theorem matchPlaceholder_cons (rest : List Char) :
    matchPlaceholder ('$' :: '\x7b' :: rest) = matchTail rest := rfl

theorem mk_append (a b : String) : String.mk (a.data ++ b.data) = a ++ b := by
  rw [← String.data_append]

/-- Substitution leaves a template with no grammar match unchanged. -/
theorem substitute_id_of_no_match {t : String} {vars : List (String × String)}
    (hv : cleanVars vars = true) (hm : hasMatch t.data = false) :
    substitute t vars = .ok t := by
  rw [substitute_eq_ok hv, substAux_no_match vars t.data hm, mk_data]

/-- The shape of a captured suffix: empty (no suffix group) or led by one of
the two markers `.`/`-`. -/
def suffixShape : List Char → Bool
  | [] => true
  | c :: _ => c = '.' || c = '-'

/-- C5: for every template `t`, substituting with the empty variable map
succeeds and returns `t` unchanged — the explicit fast path performs no
validation and no scan, so even templates containing placeholders or
malformed placeholder syntax come back verbatim. -/
theorem substitute_empty_vars_id (t : String) : substitute t [] = .ok t := by
  unfold substitute
  rw [if_pos (by simp)]

/-- C1: `substitute template vars` fails if and only if some key or some
value of `vars` contains one of the forbidden characters `$`, `\x7b`, `\x7d`;
in particular for a map whose keys and values are all clean it succeeds on
every template (malformed placeholders included), and on failure only an
error — never substituted output — is produced. -/
theorem substitute_fails_iff_dirty_vars (t : String) (vars : List (String × String)) :
    (∃ e, substitute t vars = .error e) ↔
      ∃ p ∈ vars, ∃ c ∈ forbiddenChars,
        strContains p.1 c = true ∨ strContains p.2 c = true := by
  constructor
  · rintro ⟨e, he⟩
    unfold substitute at he
    by_cases hemp : vars.isEmpty
    · rw [if_pos hemp] at he
      exact Except.noConfusion he
    · rw [if_neg hemp] at he
      match hv : validateVars vars with
      | .ok () => rw [hv] at he; exact Except.noConfusion he
      | .error e2 =>
        obtain ⟨p, hp, c, hc, hor⟩ := validateVars_error_shape hv
        exact ⟨p, hp, c, hc, hor.elim (fun x => Or.inl x.1) (fun x => Or.inr x.1)⟩
  · rintro ⟨p, hp, c, hc, hor⟩
    have hne : ¬ vars.isEmpty = true := by
      cases vars with
      | nil => exact absurd hp (by simp)
      | cons q t => simp [List.isEmpty]
    match hv : validateVars vars with
    | .error e =>
      refine ⟨e, ?_⟩
      unfold substitute
      rw [if_neg hne, hv]
    | .ok () =>
      exfalso
      have hcl := validateVars_ok_iff.mp hv
      rw [cleanVars, List.all_eq_true] at hcl
      have hpcl := hcl p hp
      simp only [Bool.and_eq_true] at hpcl
      rcases hor with h | h
      · rw [cleanStr_no_contains hpcl.1 c hc] at h
        exact Bool.false_ne_true h
      · rw [cleanStr_no_contains hpcl.2 c hc] at h
        exact Bool.false_ne_true h

/-- C9: whenever validation of the variable map fails, the error text is
exactly the source's format string applied to a role (`"key"` or
`"value"`), the offending key or value itself, and one of the three
forbidden characters that the offending text really contains; the witness
instantiates this at the map `[("VAR", "a$b")]`, whose error cites role
"value", text `a$b` and character `$`. -/
theorem validateVars_error_message (vars : List (String × String)) (e : String)
    (h : validateVars vars = .error e) :
    ∃ kind s c, (kind = "key" ∨ kind = "value") ∧ c ∈ forbiddenChars ∧
      strContains s c = true ∧
      (∃ p ∈ vars, (kind = "key" ∧ p.1 = s) ∨ (kind = "value" ∧ p.2 = s)) ∧
      e = errMsg kind s c := by
  obtain ⟨p, hp, c, hc, hor⟩ := validateVars_error_shape h
  rcases hor with ⟨hcon, he⟩ | ⟨hcon, he⟩
  · exact ⟨"key", p.1, c, Or.inl rfl, hc, hcon, ⟨p, hp, Or.inl ⟨rfl, rfl⟩⟩, he⟩
  · exact ⟨"value", p.2, c, Or.inr rfl, hc, hcon, ⟨p, hp, Or.inr ⟨rfl, rfl⟩⟩, he⟩

/-- Witness for C9: the concrete map `[("VAR", "a$b")]` fails validation
with the message citing role "value", text `a$b`, character `$`. -/
theorem validateVars_error_message_witness :
    ∃ kind s c, (kind = "key" ∨ kind = "value") ∧ c ∈ forbiddenChars ∧
      strContains s c = true ∧
      (∃ p ∈ [("VAR", "a$b")], (kind = "key" ∧ p.1 = s) ∨ (kind = "value" ∧ p.2 = s)) ∧
      "variable value \x27a$b\x27 contains forbidden character \x27$\x27" = errMsg kind s c :=
  validateVars_error_message [("VAR", "a$b")] _ rfl

/-- C10: validation order is deterministic within one entry — the key is
checked before the value, so a one-entry map with a dirty key always
reports the key (whatever the value is, in particular when it is dirty
too); and within one string the forbidden characters are tried in the fixed
order `$`, `\x7b`, `\x7d`, so a string containing `\x7b` and `\x7d` but not `$` is
always reported for `\x7b`. -/
theorem validation_order_deterministic (k v s kind : String)
    (hk : cleanStr k = false)
    (h1 : strContains s '\x7b' = true) (_h2 : strContains s '\x7d' = true)
    (h3 : strContains s '$' = false) :
    (∃ c, c ∈ forbiddenChars ∧ strContains k c = true ∧
        validateVars [(k, v)] = .error (errMsg "key" k c)) ∧
    validate s kind = .error (errMsg kind s '\x7b') := by
  constructor
  · obtain ⟨c, hc, hcon, he⟩ := validate_of_dirty "key" hk
    refine ⟨c, hc, hcon, ?_⟩
    unfold validateVars
    rw [he]
  · unfold validate forbiddenChars
    simp [checkForbidden, h3, h1]

/-- Witness for C10 at the key `$x` (dirty), value `\x7d` (dirty), and the
string `a\x7b\x7db`, which contains `\x7b` and `\x7d` but no `$`. -/
theorem validation_order_deterministic_witness :
    (∃ c, c ∈ forbiddenChars ∧ strContains "$x" c = true ∧
        validateVars [("$x", "\x7d")] = .error (errMsg "key" "$x" c)) ∧
    validate "a\x7b\x7db" "value" = .error (errMsg "value" "a\x7b\x7db" '\x7b') :=
  validation_order_deterministic "$x" "\x7d" "a\x7b\x7db" "value"
    (by decide) (by decide) (by decide) (by decide)

/-- C2: suffix-attachment law.  For a variable name `V`, a non-empty value
`x` free of the forbidden characters, and a suffix text `s` (empty, or led
by one of the markers `.`/`-` as the grammar's suffixes are) that contains
no `\x7d`, substituting the single placeholder built as `$\x7b + V + s + \x7d`
with the map `[(V, x)]` yields `x ++ s`: the captured suffix includes its
leading marker and is emitted verbatim right after the value. -/
theorem suffix_attachment (V s x : String) (hV : validName V = true)
    (hs : suffixShape s.data = true) (hs2 : strContains s '\x7d' = false)
    (hx : ¬ x = "") (hxc : cleanStr x = true) :
    substitute ("$\x7b" ++ V ++ s ++ "\x7d") [(V, x)] = .ok (x ++ s) := by
  have hclean : cleanVars [(V, x)] = true := by
    simp [cleanVars, validName_clean hV, hxc]
  rw [substitute_eq_ok hclean]
  have hdata : ("$\x7b" ++ V ++ s ++ "\x7d").data
      = '$' :: '\x7b' :: (V.data ++ (s.data ++ ['\x7d'])) := by
    simp [String.data_append]
  rw [hdata]
  have hVL : validNameL V.data = true := hV
  have hlook : List.lookup (String.mk V.data) [(V, x)] = some x := by
    rw [mk_data]; exact lookup_self V x []
  cases hsd : s.data with
  | nil =>
    simp only [List.nil_append]
    have hm : matchPlaceholder ('$' :: '\x7b' :: (V.data ++ ['\x7d']))
        = some (V.data, [], []) := by
      rw [matchPlaceholder_cons]
      exact matchTail_name_close hVL
    rw [substAux_found [(V, x)] hm hlook hx, substAux_nil]
    have hseq : s = "" := String.ext hsd
    rw [hseq]
    simp [mk_data]
  | cons m s' =>
    have hm2 : m = '.' ∨ m = '-' := by
      rw [hsd] at hs
      simpa [suffixShape] using hs
    have hbody : ∀ a ∈ s', ¬ a = '\x7d' := by
      intro a ha heq
      subst heq
      have hmem : '\x7d' ∈ s.data := by
        rw [hsd]; exact List.mem_cons_of_mem _ ha
      rw [strContains_iff.mpr hmem] at hs2
      exact absurd hs2 (by simp)
    have hm : matchPlaceholder ('$' :: '\x7b' :: (V.data ++ ((m :: s') ++ ['\x7d'])))
        = some (V.data, m :: s', []) := by
      rw [matchPlaceholder_cons]
      have := matchTail_name_suffix (r := ([] : List Char)) hVL hm2 hbody
      simpa using this
    rw [substAux_found [(V, x)] hm hlook hx, substAux_nil]
    rw [List.append_nil, ← hsd, mk_append]

/-- Witness for C2 at `V = "VAR"`, `s = ".ext"`, `x = "foo"`:
`$\x7bVAR.ext\x7d` becomes `foo.ext`. -/
theorem suffix_attachment_witness :
    substitute ("$\x7b" ++ "VAR" ++ ".ext" ++ "\x7d") [("VAR", "foo")]
      = .ok ("foo" ++ ".ext") :=
  suffix_attachment "VAR" ".ext" "foo" (by decide) (by decide) (by decide)
    (by decide) (by decide)

/-- C3: vanishing-empty law.  For a variable name `V`, a suffix marker `m`
(`.` or `-`) and any suffix text `body` not containing `\x7d`, substituting
the placeholder `$\x7b + V + m + body + \x7d` with the map binding `V` to the
empty string yields the empty string: the placeholder, its suffix and the
surrounding delimiters all disappear. -/
theorem vanishing_empty (V body : String) (m : Char) (hV : validName V = true)
    (hm : m = '.' ∨ m = '-') (hb : strContains body '\x7d' = false) :
    substitute ("$\x7b" ++ V ++ String.singleton m ++ body ++ "\x7d") [(V, "")]
      = .ok "" := by
  have hclean : cleanVars [(V, "")] = true := by
    simp [cleanVars, validName_clean hV, show cleanStr "" = true from by decide]
  rw [substitute_eq_ok hclean]
  have hdata : ("$\x7b" ++ V ++ String.singleton m ++ body ++ "\x7d").data
      = '$' :: '\x7b' :: (V.data ++ (m :: (body.data ++ ['\x7d']))) := by
    simp [String.data_append, String.singleton]
  rw [hdata]
  have hbody : ∀ a ∈ body.data, ¬ a = '\x7d' := by
    intro a ha heq
    subst heq
    rw [strContains_iff.mpr ha] at hb
    exact absurd hb (by simp)
  have hmm : matchPlaceholder ('$' :: '\x7b' :: (V.data ++ (m :: (body.data ++ ['\x7d']))))
      = some (V.data, m :: body.data, []) := by
    rw [matchPlaceholder_cons]
    have := matchTail_name_suffix (r := ([] : List Char)) hV hm hbody
    simpa using this
  have hlook : List.lookup (String.mk V.data) [(V, "")] = some "" := by
    rw [mk_data]; exact lookup_self V "" []
  rw [substAux_found_empty [(V, "")] hmm hlook, substAux_nil]

/-- Witness for C3 at `V = "VAR"`, marker `.`, suffix text `"sfx"`:
`$\x7bVAR.sfx\x7d` with `VAR = ""` becomes the empty string. -/
theorem vanishing_empty_witness :
    substitute ("$\x7b" ++ "VAR" ++ String.singleton '.' ++ "sfx" ++ "\x7d")
      [("VAR", "")] = .ok "" :=
  vanishing_empty "VAR" "sfx" '.' (by decide) (Or.inl rfl) (by decide)

/-- Counterexample to C4 as stated: the claimed equality quantified over
*every* mapping without the key fails for a mapping carrying a forbidden
character — `substitute "$\x7bV\x7d" [("K", "$")]` is a `ValidationError`, not
the untouched template, although the mapping does not contain `V`. -/
theorem unknown_passthrough_cex :
    ¬ substitute "$\x7bV\x7d" [("K", "$")] = .ok "$\x7bV\x7d" := by
  intro h
  have h2 : substitute "$\x7bV\x7d" [("K", "$")] = .error (errMsg "value" "$" '$') := rfl
  rw [h2] at h
  exact Except.noConfusion h

/-- C4 (amended): for a variable name `V`, a suffix text `s` (empty or
marker-led, no `\x7d`) and a mapping whose keys and values are free of the
forbidden characters and which does not contain the key `V`, substitution
emits the entire matched placeholder — suffix and `$\x7b`/`\x7d` delimiters
included — unchanged (lookup is exact: any map without precisely the key
`V` passes the placeholder through). -/
theorem unknown_passthrough (V s : String) (vars : List (String × String))
    (hv : cleanVars vars = true) (habs : List.lookup V vars = none)
    (hV : validName V = true) (hs : suffixShape s.data = true)
    (hs2 : strContains s '\x7d' = false) :
    substitute ("$\x7b" ++ V ++ s ++ "\x7d") vars
      = .ok ("$\x7b" ++ V ++ s ++ "\x7d") := by
  have hdata : ("$\x7b" ++ V ++ s ++ "\x7d").data
      = '$' :: '\x7b' :: (V.data ++ (s.data ++ ['\x7d'])) := by
    simp [String.data_append]
  suffices h : substAux vars (("$\x7b" ++ V ++ s ++ "\x7d").data)
      = ("$\x7b" ++ V ++ s ++ "\x7d").data by
    rw [substitute_eq_ok hv, h, mk_data]
  rw [hdata]
  have hVL : validNameL V.data = true := hV
  have hlook : List.lookup (String.mk V.data) vars = none := by
    rw [mk_data]; exact habs
  cases hsd : s.data with
  | nil =>
    simp only [List.nil_append]
    have hm : matchPlaceholder ('$' :: '\x7b' :: (V.data ++ ['\x7d']))
        = some (V.data, [], []) := by
      rw [matchPlaceholder_cons]
      exact matchTail_name_close hVL
    rw [substAux_not_found vars hm hlook, substAux_nil]
    simp
  | cons m s' =>
    have hm2 : m = '.' ∨ m = '-' := by
      rw [hsd] at hs
      simpa [suffixShape] using hs
    have hbody : ∀ a ∈ s', ¬ a = '\x7d' := by
      intro a ha heq
      subst heq
      have hmem : '\x7d' ∈ s.data := by
        rw [hsd]; exact List.mem_cons_of_mem _ ha
      rw [strContains_iff.mpr hmem] at hs2
      exact absurd hs2 (by simp)
    have hm : matchPlaceholder ('$' :: '\x7b' :: (V.data ++ ((m :: s') ++ ['\x7d'])))
        = some (V.data, m :: s', []) := by
      rw [matchPlaceholder_cons]
      have := matchTail_name_suffix (r := ([] : List Char)) hVL hm2 hbody
      simpa using this
    rw [substAux_not_found vars hm hlook, substAux_nil]
    simp

/-- Witness for the amended C4 at `V = "V"`, `s = ""` and the clean mapping
`[("K", "k")]`, which does not contain `V`: `$\x7bV\x7d` is returned
unchanged. -/
theorem unknown_passthrough_witness :
    substitute ("$\x7b" ++ "V" ++ "" ++ "\x7d") [("K", "k")]
      = .ok ("$\x7b" ++ "V" ++ "" ++ "\x7d") :=
  unknown_passthrough "V" "" [("K", "k")] (by decide) (by decide) (by decide)
    (by decide) (by decide)

/-- C6: for a valid mapping, text that begins with `$` `\x7b` but does not
match the full placeholder grammar passes through substitution literally:
a `$\x7b` followed by a space (`foo $\x7b bar`), a `$\x7b \x7d` with a space
instead of a name, a dangling `$\x7b + V` at end of input, and
`$\x7b + V + c + \x7d` where `c` is neither a name character nor one of
`\x7d`, `.`, `-` right after the name (so the whole run is not matched at
all). -/
theorem malformed_passthrough (vars : List (String × String)) (V : String) (c : Char)
    (hv : cleanVars vars = true) (hV : validName V = true) (hc0 : nameChar c = false)
    (hc1 : ¬ c = '\x7d') (hc2 : ¬ c = '.') (hc3 : ¬ c = '-') :
    substitute "foo $\x7b bar" vars = .ok "foo $\x7b bar" ∧
    substitute "$\x7b \x7d" vars = .ok "$\x7b \x7d" ∧
    substitute ("$\x7b" ++ V) vars = .ok ("$\x7b" ++ V) ∧
    substitute ("$\x7b" ++ V ++ String.singleton c ++ "\x7d") vars
      = .ok ("$\x7b" ++ V ++ String.singleton c ++ "\x7d") := by
  have hVname : ∀ a ∈ V.data, ¬ a = '$' := by
    intro a ha
    exact (nameChar_not_special (validNameL_all hV a ha)).1
  refine ⟨substitute_id_of_no_match hv (by decide),
          substitute_id_of_no_match hv (by decide), ?_, ?_⟩
  · apply substitute_id_of_no_match hv
    have hdata : ("$\x7b" ++ V).data = '$' :: '\x7b' :: V.data := by
      simp [String.data_append]
    rw [hdata, hasMatch_cons, matchPlaceholder_cons,
        matchTail_all_name (validNameL_all hV)]
    simp only [Option.isSome_none, Bool.false_or]
    apply hasMatch_of_no_dollar
    intro a ha
    rcases List.mem_cons.mp ha with rfl | ha
    · decide
    · exact hVname a ha
  · apply substitute_id_of_no_match hv
    have hdata : ("$\x7b" ++ V ++ String.singleton c ++ "\x7d").data
        = '$' :: '\x7b' :: (V.data ++ (c :: ['\x7d'])) := by
      simp [String.data_append, String.singleton]
    rw [hdata, hasMatch_cons, matchPlaceholder_cons,
        matchTail_name_bad hV hc0 hc1 hc2 hc3]
    simp only [Option.isSome_none, Bool.false_or]
    by_cases hcd : c = '$'
    · subst hcd
      rw [show ('\x7b' :: (V.data ++ ('$' :: ['\x7d'])))
            = ('\x7b' :: V.data) ++ ['$', '\x7d'] by simp]
      have hnd : ∀ a ∈ '\x7b' :: V.data, ¬ a = '$' := by
        intro a ha
        rcases List.mem_cons.mp ha with rfl | ha
        · decide
        · exact hVname a ha
      rw [hasMatch_append hnd]
      decide
    · apply hasMatch_of_no_dollar
      intro a ha
      rcases List.mem_cons.mp ha with rfl | ha
      · decide
      · rcases List.mem_append.mp ha with ha | ha
        · exact hVname a ha
        · rcases List.mem_cons.mp ha with rfl | ha
          · exact hcd
          · have : a = '\x7d' := by simpa using ha
            subst this
            decide

/-- Witness for C6 at `vars = [("VAR", "var")]`, `V = "VAR"`, `c = '!'`
(the spec's own examples: `foo $\x7b bar`, `$\x7b \x7d`, a dangling
`$\x7bVAR`, and `$\x7bVAR!\x7d`). -/
theorem malformed_passthrough_witness :
    substitute "foo $\x7b bar" [("VAR", "var")] = .ok "foo $\x7b bar" ∧
    substitute "$\x7b \x7d" [("VAR", "var")] = .ok "$\x7b \x7d" ∧
    substitute ("$\x7b" ++ "VAR") [("VAR", "var")] = .ok ("$\x7b" ++ "VAR") ∧
    substitute ("$\x7b" ++ "VAR" ++ String.singleton '!' ++ "\x7d") [("VAR", "var")]
      = .ok ("$\x7b" ++ "VAR" ++ String.singleton '!' ++ "\x7d") :=
  malformed_passthrough [("VAR", "var")] "VAR" '!' (by decide) (by decide)
    (by decide) (by decide) (by decide) (by decide)

theorem hasMatch_iff_exists {cs : List Char} :
    hasMatch cs = true ↔
      ∃ l1 l2, cs = l1 ++ l2 ∧ (matchPlaceholder l2).isSome = true := by
  induction cs with
  | nil =>
    simp only [hasMatch_nil, Bool.false_eq_true, false_iff]
    rintro ⟨l1, l2, heq, hs⟩
    have : l2 = [] := (List.append_eq_nil.mp heq.symm).2
    subst this
    simp [matchPlaceholder] at hs
  | cons a cs ih =>
    rw [hasMatch_cons]
    constructor
    · intro h
      rcases Bool.or_eq_true_iff.mp h with h | h
      · exact ⟨[], a :: cs, rfl, h⟩
      · obtain ⟨l1, l2, heq, hs⟩ := ih.mp h
        exact ⟨a :: l1, l2, by rw [heq]; rfl, hs⟩
    · rintro ⟨l1, l2, heq, hs⟩
      cases l1 with
      | nil =>
        rw [List.nil_append] at heq
        subst heq
        simp [hs]
      | cons b t =>
        rw [List.cons_append] at heq
        injection heq with h1 h2
        have : hasMatch cs = true := ih.mpr ⟨t, l2, h2, hs⟩
        simp [this]

/-- C8: `is_templated` returns true exactly when some split of the input
has a placeholder-grammar match at its start — the same `matchPlaceholder`
grammar the engine scans with, independent of any mapping; consequently,
for a valid mapping, substitution returns an untemplated input unchanged. -/
theorem detector_same_grammar (t : String) (vars : List (String × String))
    (hv : cleanVars vars = true) :
    (is_templated t = true ↔
      ∃ l1 l2, t.data = l1 ++ l2 ∧ (matchPlaceholder l2).isSome = true) ∧
    (is_templated t = false → substitute t vars = .ok t) := by
  exact ⟨hasMatch_iff_exists, fun h => substitute_id_of_no_match hv h⟩

/-- Witness for C8 at `t = "foo"` (no placeholder) and the valid mapping
`[("A", "1")]`. -/
theorem detector_same_grammar_witness :
    ((is_templated "foo" = true ↔
        ∃ l1 l2, ("foo" : String).data = l1 ++ l2 ∧ (matchPlaceholder l2).isSome = true) ∧
     (is_templated "foo" = false → substitute "foo" [("A", "1")] = .ok "foo")) :=
  detector_same_grammar "foo" [("A", "1")] (by decide)

/-- Fuelled form of `scanClean`. -/
def scanCleanFuel (vars : List (String × String)) : Nat → List Char → Bool
  | _, [] => true
  | 0, _ :: _ => false
  | fuel + 1, c :: cs =>
    match matchPlaceholder (c :: cs) with
    | some (nm, suf, rest) =>
      (List.lookup (String.mk nm) vars).isSome && suf.all (fun a => !(a = '$'))
        && scanCleanFuel vars fuel rest
    | none => !(c = '$') && scanCleanFuel vars fuel cs

/-- The hypothesis under which the detector-consistency property holds:
running the engine's scan over the input, every matched placeholder name is
present in the map, no matched suffix contains `$`, and no character
outside the matches is `$`. -/
def scanClean (vars : List (String × String)) (cs : List Char) : Bool :=
  scanCleanFuel vars cs.length cs

theorem scanCleanFuel_eq (vars : List (String × String)) :
    ∀ f₁ f₂ cs, cs.length ≤ f₁ → cs.length ≤ f₂ →
      scanCleanFuel vars f₁ cs = scanCleanFuel vars f₂ cs := by
  intro f₁
  induction f₁ with
  | zero =>
    intro f₂ cs h1 _
    have : cs = [] := List.length_eq_zero.mp (Nat.le_zero.mp h1)
    subst this
    cases f₂ <;> rfl
  | succ f ih =>
    intro f₂ cs h1 h2
    match cs with
    | [] => cases f₂ <;> rfl
    | c :: cs =>
      match f₂ with
      | 0 => exact absurd h2 (by simp)
      | g + 1 =>
        simp only [scanCleanFuel]
        have hc : cs.length ≤ f := Nat.le_of_succ_le_succ h1
        have hg : cs.length ≤ g := Nat.le_of_succ_le_succ h2
        match hm : matchPlaceholder (c :: cs) with
        | some (nm, suf, rest) =>
          have hrest : rest.length ≤ cs.length := by
            have := matchPlaceholder_length hm
            simp only [List.length_cons] at this
            omega
          simp only [ih g rest (Nat.le_trans hrest hc) (Nat.le_trans hrest hg)]
        | none =>
          simp only [ih g cs hc hg]

theorem scanClean_cons_none {c : Char} {cs : List Char} (vars : List (String × String))
    (h : matchPlaceholder (c :: cs) = none) :
    scanClean vars (c :: cs) = (!(c = '$') && scanClean vars cs) := by
  unfold scanClean
  simp only [List.length_cons, scanCleanFuel, h]

theorem scanClean_cons_some {c : Char} {cs nm suf rest : List Char}
    (vars : List (String × String))
    (hm : matchPlaceholder (c :: cs) = some (nm, suf, rest)) :
    scanClean vars (c :: cs)
      = ((List.lookup (String.mk nm) vars).isSome && suf.all (fun a => !(a = '$'))
          && scanClean vars rest) := by
  conv_lhs => unfold scanClean
  simp only [List.length_cons, scanCleanFuel, hm]
  have hrest : rest.length ≤ cs.length := by
    have := matchPlaceholder_length hm
    simp only [List.length_cons] at this
    omega
  rw [scanCleanFuel_eq vars cs.length rest.length rest hrest (Nat.le_refl _)]
  rfl

theorem substAux_no_dollar (vars : List (String × String))
    (hvals : ∀ p ∈ vars, cleanStr p.2 = true) :
    ∀ n cs, cs.length ≤ n → scanClean vars cs = true →
      ∀ a ∈ substAux vars cs, ¬ a = '$' := by
  intro n
  induction n with
  | zero =>
    intro cs h1 _ a ha
    have : cs = [] := List.length_eq_zero.mp (Nat.le_zero.mp h1)
    subst this
    rw [substAux_nil] at ha
    simp at ha
  | succ n ih =>
    intro cs hlen hsc a ha
    match cs with
    | [] =>
      rw [substAux_nil] at ha
      simp at ha
    | c :: cs =>
      have hlen' : cs.length ≤ n := Nat.le_of_succ_le_succ hlen
      match hm : matchPlaceholder (c :: cs) with
      | some (nm, suf, rest) =>
        have hrest : rest.length ≤ n := by
          have := matchPlaceholder_length hm
          simp only [List.length_cons] at this
          omega
        rw [scanClean_cons_some vars hm] at hsc
        simp only [Bool.and_eq_true] at hsc
        obtain ⟨⟨hsome, hsuf⟩, hrclean⟩ := hsc
        match hl : List.lookup (String.mk nm) vars with
        | none => rw [hl] at hsome; simp at hsome
        | some v =>
          by_cases hv : v = ""
          · subst hv
            rw [substAux_found_empty vars hm hl] at ha
            exact ih rest hrest hrclean a ha
          · rw [substAux_found vars hm hl hv] at ha
            rcases List.mem_append.mp ha with ha | ha
            · rcases List.mem_append.mp ha with ha | ha
              · have hcv := hvals _ (lookup_mem hl)
                intro heq
                subst heq
                have hone : strContains v '$' = true := strContains_iff.mpr ha
                rw [cleanStr_no_contains hcv '$' (by simp [forbiddenChars])] at hone
                exact absurd hone (by simp)
              · have := List.all_eq_true.mp hsuf a ha
                simpa using this
            · exact ih rest hrest hrclean a ha
      | none =>
        rw [scanClean_cons_none vars hm] at hsc
        simp only [Bool.and_eq_true] at hsc
        obtain ⟨hc, hcs⟩ := hsc
        rw [substAux_cons_none vars hm] at ha
        rcases List.mem_cons.mp ha with rfl | ha
        · simpa using hc
        · exact ih cs hlen' hcs a ha

/-- Counterexample to C7 as stated: in the template `$\x7bA.$\x7bB\x7dx\x7d`
the engine's scan matches exactly one placeholder, named `A` (the suffix
capture swallows `.$\x7bB` up to the first `\x7d`), and every placeholder name
of the template — `A`, and also `B` under the loosest substring reading —
is present in the map `[("A","v"), ("B","w")]`; yet the output `v.$\x7bBx\x7d`
assembles a brand-new placeholder `$\x7bBx\x7d` out of the suffix text and the
trailing literal `x\x7d`, so `is_templated` on the output is true. -/
theorem detector_consistency_cex :
    (∀ n ∈ placeholderNames ("$\x7bA.$\x7bB\x7dx\x7d" : String).data,
        (List.lookup n [("A", "v"), ("B", "w")]).isSome = true) ∧
    substitute "$\x7bA.$\x7bB\x7dx\x7d" [("A", "v"), ("B", "w")] = .ok "v.$\x7bBx\x7d" ∧
    is_templated "v.$\x7bBx\x7d" = true :=
  ⟨by decide, rfl, by decide⟩

/-- C7 (amended): for a valid mapping, `is_templated (substitute t vars)`
is false whenever the scan of `t` is clean for `vars`: every matched
placeholder name is present in the map (with any value, empty or not), no
matched suffix text contains `$`, and no character of `t` outside the
matches is `$`.  (The two extra conditions are forced by the
counterexample: a `$` surviving in literal or suffix text can combine with
substituted values and later literals into a new placeholder.) -/
theorem detector_consistency (t : String) (vars : List (String × String))
    (hv : cleanVars vars = true) (hs : scanClean vars t.data = true) :
    ∃ out, substitute t vars = .ok out ∧ is_templated out = false := by
  refine ⟨String.mk (substAux vars t.data), substitute_eq_ok hv, ?_⟩
  have hvals : ∀ p ∈ vars, cleanStr p.2 = true := by
    intro p hp
    rw [cleanVars, List.all_eq_true] at hv
    have := hv p hp
    simp only [Bool.and_eq_true] at this
    exact this.2
  exact hasMatch_of_no_dollar
    (substAux_no_dollar vars hvals t.data.length t.data (Nat.le_refl _) hs)

/-- Witness for the amended C7 at `t = "a $\x7bVAR\x7d b"`,
`vars = [("VAR", "v")]`: the scan is clean, substitution succeeds and its
output is not templated. -/
theorem detector_consistency_witness :
    ∃ out, substitute "a $\x7bVAR\x7d b" [("VAR", "v")] = .ok out ∧
      is_templated out = false :=
  detector_consistency "a $\x7bVAR\x7d b" [("VAR", "v")] (by decide) (by decide)

end Ksubst
